import Mathlib

/-!
Verification of `planta_opcua.py`, a first-order plant simulator that talks
to a PLC over OPC UA.  Machine floats are modelled as rationals; the random
draw `random.random()` is modelled as a parameter `r` with `0 ≤ r < 1`;
network effects (read/write/connect outcomes) are modelled as explicit
inputs to the per-tick transition function.
-/

namespace PlantaOpcua

/-- `TS = 0.1`, the sampling time (line 17 of the source). -/
def TS : ℚ := 1/10

/-- `Kproc = 1.0` (line 18). -/
def Kproc : ℚ := 1

/-- `Tau = 2.0` (line 19). -/
def Tau : ℚ := 2

/-- `NOISE_PCT = 0.0025` (line 20). -/
def NOISE_PCT : ℚ := 1/400

/-- `delay_seconds = 10.0` (line 23). -/
def delay_seconds : ℚ := 10

/-- `delay_samples = int(delay_seconds / TS + 0.5)` (line 24); the argument is
positive so Python `int` truncation is the floor. -/
def delay_samples : ℤ := ⌊delay_seconds / TS + 1/2⌋

/-- `initial_mv = 0.0`, the neutral value the FIFO is pre-filled with (line 31). -/
def initial_mv : ℚ := 0

/-- `pv = 20.0`, the initial process value (line 27). -/
def pv0 : ℚ := 20

/-- The plant configuration; `codeParams` instantiates it with the constants
of the source, while theorems quantify over it where the claim does. -/
structure Params where
  Ts : ℚ
  Tau : ℚ
  Kproc : ℚ
  NoisePct : ℚ
deriving DecidableEq

def codeParams : Params := ⟨TS, Tau, Kproc, NOISE_PCT⟩

/-- Explicit-Euler integration step, line 92:
`new_pv = pv + TS * ((Kproc * mv_delayed - pv) / Tau)`. -/
def eulerStep (P : Params) (pv mv_delayed : ℚ) : ℚ :=
  pv + P.Ts * ((P.Kproc * mv_delayed - pv) / P.Tau)

/-- The noise value produced from the uniform draw `r = random.random()`,
line 95: `noise = (random.random() - 0.5) * 2.0 * NOISE_PCT`. -/
def noiseOf (P : Params) (r : ℚ) : ℚ :=
  (r - 1/2) * 2 * P.NoisePct

/-- Multiplicative noise application, line 96: `new_pv = new_pv * (1.0 + noise)`. -/
def applyNoise (v noise : ℚ) : ℚ := v * (1 + noise)

/-- Saturation to `0..100`, lines 99-102. -/
def clampPV (v : ℚ) : ℚ :=
  if v < 0 then 0 else if v > 100 then 100 else v

/-- One model step of the main loop, lines 92-104, written exactly in the
source's sequential order: Euler integration, then multiplicative noise from
the draw `r`, then saturation. -/
def plantStep (P : Params) (pv mv_delayed r : ℚ) : ℚ :=
  let new_pv := pv + P.Ts * ((P.Kproc * mv_delayed - pv) / P.Tau)
  let noise := (r - 1/2) * 2 * P.NoisePct
  let noisy := new_pv * (1 + noise)
  if noisy < 0 then 0 else if noisy > 100 then 100 else noisy

/-- The per-tick FIFO operation, lines 87-88: `fifo.append(mv)` then
`mv_delayed = fifo.pop(0)`.  Returns the popped head and the new buffer. -/
def pushAndPop (l : List ℚ) (v : ℚ) : ℚ × List ℚ :=
  ((l ++ [v]).headD 0, (l ++ [v]).tail)

/-- The FIFO contents after `j` ticks, starting from the buffer of capacity
`N` pre-filled with `initial_mv` (line 32); on call `j+1` the value `u (j+1)`
is pushed. -/
def fifoState (N : ℕ) (u : ℕ → ℚ) : ℕ → List ℚ
  | 0 => List.replicate N initial_mv
  | j+1 => (pushAndPop (fifoState N u j) (u (j+1))).2

/-- The value returned (popped) by the `k`-th call to the FIFO operation,
`k ≥ 1`. -/
def fifoOut (N : ℕ) (u : ℕ → ℚ) (k : ℕ) : ℚ :=
  (pushAndPop (fifoState N u (k-1)) (u k)).1

/-- The mutable state of the main loop: the plant value `pv` (line 27), the
delay buffer `fifo` (line 32) and the simulated time `t` (line 28). -/
structure LoopState where
  pv : ℚ
  fifo : List ℚ
  t : ℚ
deriving DecidableEq

/-- The environment's behaviour on one tick: either the read of MV fails
(`read_value` returned `None`), or it returns `mv`, the noise draw is `r`,
and the write of PV succeeds iff `writeOk`. -/
inductive TickIn where
  | readFail : TickIn
  | step : ℚ → ℚ → Bool → TickIn
deriving DecidableEq

/-- Observable effects of one tick: how many reconnect cycles ran and
whether the `t=... MV=... PV=...` log line (line 115) was printed. -/
structure TickOut where
  reconnects : ℕ
  loggedPV : Bool
deriving DecidableEq

/-- One iteration of the main `while True` loop, lines 74-125.
On a read failure (lines 79-84) the session is re-established and the
iteration `continue`s before touching `fifo`, `pv` or `t`.
Otherwise the FIFO is cycled (87-88), the model step runs (92-104), and the
write of PV is attempted (107): on failure (108-112) the loop `continue`s
before the log line and before `t += TS`; on success it logs and advances `t`. -/
def tick (P : Params) (s : LoopState) : TickIn → LoopState × TickOut
  | .readFail => (s, ⟨1, false⟩)
  | .step mv r wOk =>
    let appended := s.fifo ++ [mv]
    let mv_delayed := appended.headD 0
    let fifo2 := appended.tail
    let new_pv := plantStep P s.pv mv_delayed r
    if wOk then (⟨new_pv, fifo2, s.t + P.Ts⟩, ⟨0, true⟩)
    else (⟨new_pv, fifo2, s.t⟩, ⟨1, false⟩)

/-- The value actually sent to the OPC UA node by `write_value(node, value)`,
line 54: the `DataValue` is built from the *global* `pv`, not from the
`value` parameter. -/
def write_value_sent (pv : ℚ) (_value : ℚ) : ℚ := pv

/-- `connect_client` (lines 36-49), modelled over the sequence of attempt
outcomes: attempt `i` yields `some handle` or fails (`none`).  Fuel bounds
the number of attempts inspected; the result carries the list of backoff
sleeps performed (3 seconds per failed attempt) and the handle. -/
def connectAux {α : Type} (attempts : ℕ → Option α) : ℕ → ℕ → Option (List ℚ × α)
  | _, 0 => none
  | i, fuel+1 =>
    match attempts i with
    | some h => some ([], h)
    | none => (connectAux attempts (i+1) fuel).map (fun p => (3 :: p.1, p.2))

/-- `connect_client()` starting from the first attempt. -/
def connect_client {α : Type} (attempts : ℕ → Option α) (fuel : ℕ) :
    Option (List ℚ × α) :=
  connectAux attempts 0 fuel

/-- The mathematical description of the FIFO contents: the `N` pre-filled
neutral values followed by the pushed values `u 1, ..., u j`. -/
def fifoModel (N : ℕ) (u : ℕ → ℚ) (j : ℕ) : List ℚ :=
  List.replicate N initial_mv ++ (List.range j).map (fun i => u (i+1))

/-- A concrete push sequence used to witness the FIFO theorems. -/
def uEx : ℕ → ℚ := fun i => (i : ℚ)

/-- A concrete attempt-outcome sequence for `connect_client`: the first two
attempts fail, the third returns handle `7`. -/
def attemptsEx : ℕ → Option ℕ := fun j => if j < 2 then none else some 7

/-- C3: one plant step is exactly the claimed composition in the claimed
order: explicit-Euler integration first, then multiplication of the
post-integration value by `(1 + noise)` where the noise computed from the
uniform draw `r ∈ [0,1)` lies in `[-NoisePct, NoisePct]` (for `NoisePct ≥ 0`),
then clamping to the output bounds; noise is applied to the post-integration
value only and saturation is applied last. -/
theorem plantStep_order (P : Params) (pv mv r : ℚ)
    (hp : 0 ≤ P.NoisePct) (hr0 : 0 ≤ r) (hr1 : r < 1) :
    plantStep P pv mv r = clampPV (applyNoise (eulerStep P pv mv) (noiseOf P r)) ∧
    -P.NoisePct ≤ noiseOf P r ∧ noiseOf P r ≤ P.NoisePct := by
  refine ⟨rfl, ?_, ?_⟩
  · unfold noiseOf
    nlinarith [mul_nonneg hp hr0]
  · unfold noiseOf
    nlinarith [mul_nonneg hp (by linarith : (0:ℚ) ≤ 1 - r)]

/-- Witness for C3 at the source's own constants, `pv = 20`, `mv = 0`,
`r = 1/2`. -/
theorem plantStep_order_witness :
    plantStep codeParams 20 0 (1/2)
      = clampPV (applyNoise (eulerStep codeParams 20 0) (noiseOf codeParams (1/2))) ∧
    -codeParams.NoisePct ≤ noiseOf codeParams (1/2) ∧
    noiseOf codeParams (1/2) ≤ codeParams.NoisePct :=
  plantStep_order codeParams 20 0 (1/2) (by norm_num [codeParams, NOISE_PCT])
    (by norm_num) (by norm_num)

/-- C5: the result of every model step lies within the output bounds
`[0, 100]`, for every prior pv, every input magnitude and every noise draw,
so the saturation invariant holds on all reachable states. -/
theorem plantStep_mem_bounds (P : Params) (pv mv r : ℚ) :
    0 ≤ plantStep P pv mv r ∧ plantStep P pv mv r ≤ 100 := by
  simp only [plantStep]
  split_ifs with h1 h2
  · norm_num
  · norm_num
  · exact ⟨le_of_not_lt h1, le_of_not_lt h2⟩

/-- C10: with capacity `N = 0` the per-tick FIFO operation is the identity
pass-through: appending `v` to the empty buffer and popping the head returns
`v` itself and leaves the buffer empty. -/
theorem pushAndPop_zero_capacity (v : ℚ) :
    pushAndPop (List.replicate 0 initial_mv) v = (v, []) := rfl

/-- C4 (code bug): `write_value` builds its `DataValue` from the global `pv`
(line 54) and ignores its `value` argument: with global `pv = 20` and argument
`value = 5` the value sent to the node is `20`, not the given `5`. -/
theorem write_value_sends_global_pv :
    write_value_sent 20 5 = 20 ∧ write_value_sent 20 5 ≠ 5 := by
  norm_num [write_value_sent]

/-- C1 counterexample: the claim says a tick on which the write fails leaves
`pv` unchanged, but the model step has already run before the write: from
`pv = 20`, empty fifo, `mv = 0`, noise draw `r = 1/2`, the failed-write tick
leaves `pv = 19 ≠ 20`. -/
theorem tick_writeFail_changes_pv :
    (tick codeParams ⟨20, [], 0⟩ (TickIn.step 0 (1/2) false)).1.pv ≠ 20 := by
  norm_num [tick, plantStep, codeParams, TS, Tau, Kproc, NOISE_PCT]

/-- C1 (amended): on a read-failure tick exactly one reconnect cycle runs, no
model step is performed, no PV log line is emitted, and `pv`, the delay buffer
and `t` are all unchanged; on a write-failure tick exactly one reconnect cycle
runs, no PV log line is emitted and `t` does not advance, but the model step
has already been performed (`pv` and the delay buffer are updated); on a
normal tick no reconnect occurs, the PV line is logged and `t` advances by
`Ts`, so normal ticking resumes. -/
theorem tick_failure_behaviour (P : Params) (s : LoopState) (mv r : ℚ) :
    tick P s TickIn.readFail = (s, ⟨1, false⟩) ∧
    tick P s (TickIn.step mv r false) =
      (⟨plantStep P s.pv ((s.fifo ++ [mv]).headD 0) r, (s.fifo ++ [mv]).tail, s.t⟩,
       ⟨1, false⟩) ∧
    tick P s (TickIn.step mv r true) =
      (⟨plantStep P s.pv ((s.fifo ++ [mv]).headD 0) r, (s.fifo ++ [mv]).tail,
        s.t + P.Ts⟩,
       ⟨0, true⟩) :=
  ⟨rfl, rfl, rfl⟩

lemma fifoModel_length (N : ℕ) (u : ℕ → ℚ) (j : ℕ) :
    (fifoModel N u j).length = N + j := by
  simp [fifoModel]

lemma fifoModel_succ (N : ℕ) (u : ℕ → ℚ) (j : ℕ) :
    fifoModel N u (j+1) = fifoModel N u j ++ [u (j+1)] := by
  simp [fifoModel, List.range_succ]

lemma fifoState_eq_drop (N : ℕ) (u : ℕ → ℚ) :
    ∀ j, fifoState N u j = (fifoModel N u j).drop j
  | 0 => by simp [fifoState, fifoModel]
  | j+1 => by
    have ih := fifoState_eq_drop N u j
    have hlen : j ≤ (fifoModel N u j).length := by
      rw [fifoModel_length]; omega
    simp only [fifoState, pushAndPop, ih]
    rw [← List.drop_append_of_le_length hlen, ← fifoModel_succ, List.tail_drop]

lemma fifoOut_eq (N : ℕ) (u : ℕ → ℚ) (m : ℕ) :
    fifoOut N u (m+1) = ((fifoModel N u (m+1))[m]?).getD 0 := by
  have hlen : m ≤ (fifoModel N u m).length := by
    rw [fifoModel_length]; omega
  unfold fifoOut pushAndPop
  rw [Nat.add_sub_cancel, fifoState_eq_drop,
    ← List.drop_append_of_le_length hlen, ← fifoModel_succ,
    List.headD_eq_head?_getD, List.head?_drop]

/-- C2: with capacity `N` pre-filled with the neutral value `0.0`, the `k`-th
call to the push-and-pop operation returns the neutral value when `k ≤ N`
and the value pushed on call `k − N` when `k > N`, for every push sequence. -/
theorem fifoOut_spec (N : ℕ) (u : ℕ → ℚ) (k : ℕ) (hk : 1 ≤ k) :
    (k ≤ N → fifoOut N u k = 0) ∧ (N < k → fifoOut N u k = u (k - N)) := by
  obtain ⟨m, rfl⟩ : ∃ m, k = m + 1 := ⟨k - 1, by omega⟩
  rw [fifoOut_eq]
  constructor
  · intro hle
    have hm : m < N := by omega
    rw [fifoModel, List.getElem?_append_left (by simpa using hm),
      List.getElem?_replicate_of_lt hm]
    simp [initial_mv]
  · intro hlt
    have hm : N ≤ m := by omega
    rw [fifoModel, List.getElem?_append_right (by simpa using hm)]
    simp only [List.length_replicate, List.getElem?_map,
      List.getElem?_range (show m - N < m + 1 by omega), Option.map_some',
      Option.getD_some]
    congr 1
    omega

/-- Witness for C2 at `N = 2`, push sequence `uEx i = i`, third call `k = 3`:
the call after the buffer empties of neutral values returns `uEx 1`. -/
theorem fifoOut_spec_witness :
    (3 ≤ 2 → fifoOut 2 uEx 3 = 0) ∧ (2 < 3 → fifoOut 2 uEx 3 = uEx (3 - 2)) :=
  fifoOut_spec 2 uEx 3 (by norm_num)

lemma fifoState_length (N : ℕ) (u : ℕ → ℚ) : ∀ j, (fifoState N u j).length = N
  | 0 => by simp [fifoState]
  | j+1 => by
    have ih := fifoState_length N u j
    simp [fifoState, pushAndPop, ih]

/-- C7: the buffer capacity is `delay_samples = round(delay_seconds / TS)`
(which is `100` for the source's constants), and the length of the buffer is
exactly that capacity after initialization and after every per-tick
append-then-pop operation. -/
theorem fifo_length_invariant :
    delay_samples = round (delay_seconds / TS) ∧
    delay_samples.toNat = 100 ∧
    ∀ (u : ℕ → ℚ) (j : ℕ),
      (fifoState delay_samples.toNat u j).length = delay_samples.toNat := by
  have h100 : delay_samples = 100 := by
    rw [delay_samples, show delay_seconds / TS + 1/2 = (201/2 : ℚ) by
      norm_num [delay_seconds, TS]]
    rw [Int.floor_eq_iff]
    norm_num
  refine ⟨?_, by rw [h100]; rfl, fun u j => fifoState_length _ u j⟩
  rw [round_eq, delay_samples]

/-- C6 counterexample: with `Ts = 3 > Tau = 1` (both positive) and no noise,
one step from `pv = 0` with constant `mv_delayed = 50` lands on `100`, beyond
the target `Kproc * mv_delayed = 1 * 50 = 50`: the result does not lie between
the previous `pv` and the target, so the claim fails for general
`Ts > 0, Tau > 0`. -/
theorem plantStep_overshoot_counterexample :
    plantStep ⟨3, 1, 1, 0⟩ 0 50 (1/2) = 100 ∧
    ¬ (plantStep ⟨3, 1, 1, 0⟩ 0 50 (1/2) ≤ max (0:ℚ) (1 * 50)) := by
  have h : plantStep ⟨3, 1, 1, 0⟩ 0 50 (1/2) = 100 := by
    norm_num [plantStep]
  refine ⟨h, ?_⟩
  rw [not_le, h]
  apply max_lt <;> norm_num

lemma clampPV_between (pv T e : ℚ) (hpv0 : 0 ≤ pv) (hpv100 : pv ≤ 100)
    (h1 : min pv T ≤ e) (h2 : e ≤ max pv T) :
    min pv T ≤ clampPV e ∧ clampPV e ≤ max pv T := by
  unfold clampPV
  split_ifs with hneg hbig
  · exact ⟨by linarith, le_trans hpv0 (le_max_left pv T)⟩
  · exact ⟨le_trans (min_le_left pv T) hpv100, by linarith⟩
  · exact ⟨h1, h2⟩

/-- C6 (amended): with `NoisePct = 0` and constant delayed input, for every
starting `pv` within the output bounds `[0, 100]` and every sampling time
with `0 < Ts ≤ Tau`, the step result lies between the previous `pv` and the
target `Kproc * mv_delayed`, so repeated stepping approaches the target
monotonically and never overshoots it. -/
theorem plantStep_monotone_toward_target (P : Params) (pv mv r : ℚ)
    (hnoise : P.NoisePct = 0) (hTs : 0 < P.Ts) (hTsTau : P.Ts ≤ P.Tau)
    (hpv0 : 0 ≤ pv) (hpv100 : pv ≤ 100) :
    min pv (P.Kproc * mv) ≤ plantStep P pv mv r ∧
    plantStep P pv mv r ≤ max pv (P.Kproc * mv) := by
  have hTau : 0 < P.Tau := lt_of_lt_of_le hTs hTsTau
  have hfrac0 : 0 ≤ P.Ts / P.Tau := div_nonneg hTs.le hTau.le
  have hfrac1 : P.Ts / P.Tau ≤ 1 := (div_le_one hTau).mpr hTsTau
  have hps : plantStep P pv mv r =
      clampPV (pv + P.Ts * ((P.Kproc * mv - pv) / P.Tau)) := by
    simp [plantStep, clampPV, hnoise]
  have he : pv + P.Ts * ((P.Kproc * mv - pv) / P.Tau) =
      pv + (P.Ts / P.Tau) * (P.Kproc * mv - pv) := by
    ring
  rw [hps]
  apply clampPV_between pv (P.Kproc * mv) _ hpv0 hpv100
  · rw [he]
    rcases le_total pv (P.Kproc * mv) with hle | hle
    · rw [min_eq_left hle]
      nlinarith [mul_nonneg hfrac0 (by linarith : 0 ≤ P.Kproc * mv - pv)]
    · rw [min_eq_right hle]
      nlinarith [mul_nonneg (by linarith : 0 ≤ 1 - P.Ts / P.Tau)
        (by linarith : 0 ≤ pv - P.Kproc * mv)]
  · rw [he]
    rcases le_total pv (P.Kproc * mv) with hle | hle
    · rw [max_eq_right hle]
      nlinarith [mul_nonneg (by linarith : 0 ≤ 1 - P.Ts / P.Tau)
        (by linarith : 0 ≤ P.Kproc * mv - pv)]
    · rw [max_eq_left hle]
      nlinarith [mul_nonneg hfrac0 (by linarith : 0 ≤ pv - P.Kproc * mv)]

/-- Witness for C6 at `Ts = 1/10`, `Tau = 2`, `Kproc = 1`, `NoisePct = 0`,
`pv = 20`, `mv_delayed = 30`. -/
theorem plantStep_monotone_witness :
    min (20:ℚ) ((1:ℚ) * 30) ≤ plantStep ⟨1/10, 2, 1, 0⟩ 20 30 (1/2) ∧
    plantStep ⟨1/10, 2, 1, 0⟩ 20 30 (1/2) ≤ max (20:ℚ) ((1:ℚ) * 30) :=
  plantStep_monotone_toward_target ⟨1/10, 2, 1, 0⟩ 20 30 (1/2) rfl
    (by norm_num) (by norm_num) (by norm_num) (by norm_num)

/-- C8 counterexample: for a negative pre-clamp value the stated interval is
reversed: with `v = -1`, `p = 1/2` and the admissible draw `noise = 0`, the
result `-1` does not lie in `[v*(1-p), v*(1+p)] = [-1/2, -3/2]`. -/
theorem applyNoise_interval_counterexample :
    ¬ ((-1:ℚ) * (1 - 1/2) ≤ applyNoise (-1) 0 ∧
       applyNoise (-1) 0 ≤ (-1:ℚ) * (1 + 1/2)) := by
  norm_num [applyNoise]

/-- C8 (amended): with `NoisePct = p ≥ 0`, for every fixed pre-clamp value
`v` and every admissible noise draw in `[-p, p]`, the post-noise pre-clamp
result `v * (1 + noise)` lies between `v*(1-p)` and `v*(1+p)` — i.e. in
`[v*(1-p), v*(1+p)]` when `v ≥ 0`, with the endpoints swapped when `v < 0`. -/
theorem applyNoise_interval (v p noise : ℚ)
    (hp : 0 ≤ p) (h1 : -p ≤ noise) (h2 : noise ≤ p) :
    min (v * (1 - p)) (v * (1 + p)) ≤ applyNoise v noise ∧
    applyNoise v noise ≤ max (v * (1 - p)) (v * (1 + p)) := by
  unfold applyNoise
  rcases le_total 0 v with hv | hv
  · rw [min_eq_left (by nlinarith), max_eq_right (by nlinarith)]
    constructor
    · nlinarith [mul_nonneg hv (by linarith : 0 ≤ noise + p)]
    · nlinarith [mul_nonneg hv (by linarith : 0 ≤ p - noise)]
  · rw [min_eq_right (by nlinarith), max_eq_left (by nlinarith)]
    constructor
    · nlinarith [mul_nonneg (by linarith : 0 ≤ -v) (by linarith : 0 ≤ p - noise)]
    · nlinarith [mul_nonneg (by linarith : 0 ≤ -v) (by linarith : 0 ≤ noise + p)]

/-- Witness for C8 at `v = 2`, `p = 1/2`, `noise = 1/4`. -/
theorem applyNoise_interval_witness :
    min ((2:ℚ) * (1 - 1/2)) (2 * (1 + 1/2)) ≤ applyNoise 2 (1/4) ∧
    applyNoise 2 (1/4) ≤ max ((2:ℚ) * (1 - 1/2)) (2 * (1 + 1/2)) :=
  applyNoise_interval 2 (1/2) (1/4) (by norm_num) (by norm_num) (by norm_num)

lemma connectAux_spec {α : Type} (attempts : ℕ → Option α) (h : α) :
    ∀ (k i fuel : ℕ), (∀ j, j < k → attempts (i + j) = none) →
      attempts (i + k) = some h → k < fuel →
      connectAux attempts i fuel = some (List.replicate k 3, h)
  | 0, i, fuel + 1, _, hsucc, _ => by
    simp only [connectAux]
    rw [show i + 0 = i from rfl] at hsucc
    rw [hsucc]
    rfl
  | k + 1, i, fuel + 1, hfail, hsucc, hfuel => by
    have h0 : attempts i = none := by
      have := hfail 0 (Nat.succ_pos k)
      rwa [Nat.add_zero] at this
    have ih := connectAux_spec attempts h k (i + 1) fuel
      (fun j hj => by
        have := hfail (j + 1) (by omega)
        rwa [show i + (j + 1) = i + 1 + j by omega] at this)
      (by rwa [show i + 1 + k = i + (k + 1) by omega])
      (by omega)
    simp only [connectAux, h0, ih, Option.map_some']
    rfl

/-- C9: `connect_client` never surfaces a failure: if the first `k` attempts
fail and attempt `k` (0-based) succeeds with handle `h`, then for any `k`
(no retry limit) the call returns exactly that handle, after performing
exactly one fixed 3-second backoff per failed attempt, and never raises. -/
theorem connect_client_spec {α : Type} (attempts : ℕ → Option α)
    (k fuel : ℕ) (h : α)
    (hfail : ∀ j, j < k → attempts j = none) (hsucc : attempts k = some h)
    (hfuel : k < fuel) :
    connect_client attempts fuel = some (List.replicate k 3, h) := by
  unfold connect_client
  apply connectAux_spec attempts h k 0 fuel
  · intro j hj
    simpa using hfail j hj
  · simpa using hsucc
  · exact hfuel

/-- Witness for C9: two failed attempts then success with handle `7` gives
two 3-second backoffs and the handle. -/
theorem connect_client_spec_witness :
    connect_client attemptsEx 5 = some (List.replicate 2 3, 7) :=
  connect_client_spec attemptsEx 2 5 7
    (by decide) (by decide) (by decide)

end PlantaOpcua
